import Mathlib

set_option autoImplicit false

/-! Verification development for the astro-seo-checker pipeline
    (src/index.js and the spec of its phase/formatter collaborators):
    the shared broken-link and SEO-issue registries, phase configuration,
    console-summary computation, report writing and the build-done
    orchestration. -/

namespace AstroSeoChecker

/-- Documents are identified by their normalized logical path. -/
abbrev Doc := String

/-- Links are URL / path strings extracted from documents. -/
abbrev Link := String

/-- Association-list model of a JS `Map`: `get` returns the value of the
first (and, for maps built by the operations below, only) entry with the
given key. -/
def getEntry {α β : Type} [DecidableEq α] : List (α × β) → α → Option β
  | [], _ => none
  | e :: es, k => if e.1 = k then some e.2 else getEntry es k

/-- Model of `map.set(k, f(v))` on an existing key of a JS `Map`: every
entry stored under `k` has its value updated in place; all other entries
and the entry order are untouched. -/
def updateEntry {α β : Type} [DecidableEq α] (m : List (α × β)) (k : α) (f : β → β) :
    List (α × β) :=
  m.map (fun e => if e.1 = k then (e.1, f e.2) else e)

/-- Model of JS `Set.add`: insertion-ordered, appends the element only if
it is not already present. -/
def addToSet (s : List Doc) (d : Doc) : List Doc :=
  if d ∈ s then s else s ++ [d]

/-- The Broken Link Registry (`brokenLinksMap`, src/index.js line 54):
a JS `Map` from a broken link to the `Set` of documents referencing it. -/
abbrev BrokenLinksMap := List (Link × List Doc)

/-- Modelled from the spec: the phase-side insert-or-merge performed on
`brokenLinksMap` when a phase finds a broken link (the recording code lives
in the missing src/phases modules; spec section 5: "look up key, if absent
create empty value, add to value's set"). A new key is appended (JS `Map`
insertion order); an existing key has the referring document added to its
document set. -/
def recordBrokenLink (m : BrokenLinksMap) (l : Link) (d : Doc) : BrokenLinksMap :=
  match getEntry m l with
  | some _ => updateEntry m l (fun s => addToSet s d)
  | none => m ++ [(l, [d])]

/-- One run of the scan, restricted to broken-link recording: every
phase-discovered reference `(link, referring document)` is merged into the
registry, starting from the empty registry created at run start. -/
def runBrokenLinks (refs : List (Link × Doc)) : BrokenLinksMap :=
  refs.foldl (fun m r => recordBrokenLink m r.1 r.2) []

/-- The documents the registry currently associates to a link. -/
def docsFor (m : BrokenLinksMap) (l : Link) : List Doc :=
  (getEntry m l).getD []

theorem mem_addToSet (s : List Doc) (d d' : Doc) :
    d' ∈ addToSet s d ↔ d' ∈ s ∨ d' = d := by
  unfold addToSet
  by_cases h : d ∈ s
  · simp only [if_pos h]
    constructor
    · exact fun hm => Or.inl hm
    · rintro (hm | rfl)
      · exact hm
      · exact h
  · simp [if_neg h]

theorem addToSet_nodup (s : List Doc) (d : Doc) (h : s.Nodup) :
    (addToSet s d).Nodup := by
  unfold addToSet
  by_cases hd : d ∈ s
  · simpa [if_pos hd]
  · simp [if_neg hd, List.nodup_append, h, hd]

theorem getEntry_append {α β : Type} [DecidableEq α] (m₁ m₂ : List (α × β)) (k : α) :
    getEntry (m₁ ++ m₂) k =
      match getEntry m₁ k with
      | some v => some v
      | none => getEntry m₂ k := by
  induction m₁ with
  | nil => simp [getEntry]
  | cons e es ih =>
      by_cases h : e.1 = k
      · simp [getEntry, h]
      · simp [getEntry, h, ih]

theorem getEntry_eq_none_iff {α β : Type} [DecidableEq α] (m : List (α × β)) (k : α) :
    getEntry m k = none ↔ k ∉ m.map Prod.fst := by
  induction m with
  | nil => simp [getEntry]
  | cons e es ih =>
      by_cases h : e.1 = k
      · simp [getEntry, h]
      · simp [getEntry, h, ih, Ne.symm h]

theorem getEntry_updateEntry_same {α β : Type} [DecidableEq α]
    (m : List (α × β)) (k : α) (f : β → β) :
    getEntry (updateEntry m k f) k = (getEntry m k).map f := by
  induction m with
  | nil => simp [getEntry, updateEntry]
  | cons e es ih =>
      by_cases h : e.1 = k
      · simp [getEntry, updateEntry, h]
      · simpa [getEntry, updateEntry, h] using ih

theorem getEntry_updateEntry_ne {α β : Type} [DecidableEq α]
    (m : List (α × β)) (k : α) (f : β → β) (k' : α) (h : k' ≠ k) :
    getEntry (updateEntry m k f) k' = getEntry m k' := by
  induction m with
  | nil => simp [getEntry, updateEntry]
  | cons e es ih =>
      by_cases he : e.1 = k
      · simpa [getEntry, updateEntry, he, Ne.symm h] using ih
      · by_cases he' : e.1 = k'
        · simp [getEntry, updateEntry, he, he', h]
        · simpa [getEntry, updateEntry, he, he'] using ih

theorem map_fst_updateEntry {α β : Type} [DecidableEq α]
    (m : List (α × β)) (k : α) (f : β → β) :
    (updateEntry m k f).map Prod.fst = m.map Prod.fst := by
  induction m with
  | nil => simp [updateEntry]
  | cons e es ih =>
      by_cases h : e.1 = k
      · simpa [updateEntry, h] using ih
      · simpa [updateEntry, h] using ih

theorem docsFor_record_same (m : BrokenLinksMap) (l : Link) (d : Doc) :
    docsFor (recordBrokenLink m l d) l = addToSet (docsFor m l) d := by
  unfold recordBrokenLink docsFor
  cases h : getEntry m l with
  | some s => simp [getEntry_updateEntry_same, h]
  | none =>
      rw [getEntry_append]
      simp [h, getEntry, addToSet]

theorem docsFor_record_ne (m : BrokenLinksMap) (l : Link) (d : Doc) (l' : Link)
    (h : l' ≠ l) :
    docsFor (recordBrokenLink m l d) l' = docsFor m l' := by
  unfold recordBrokenLink docsFor
  cases hg : getEntry m l with
  | some s => rw [getEntry_updateEntry_ne m l _ l' h]
  | none =>
      rw [getEntry_append]
      cases hg' : getEntry m l' with
      | some v => simp
      | none => simp [getEntry, Ne.symm h]

theorem record_keys_nodup (m : BrokenLinksMap) (l : Link) (d : Doc)
    (h : (m.map Prod.fst).Nodup) :
    ((recordBrokenLink m l d).map Prod.fst).Nodup := by
  unfold recordBrokenLink
  cases hg : getEntry m l with
  | some s => rw [map_fst_updateEntry]; exact h
  | none =>
      have hl : l ∉ m.map Prod.fst := (getEntry_eq_none_iff m l).1 hg
      simp [List.nodup_append, h, hl]

/-- Invariant carried through one scan: unique keys, duplicate-free
document sets, and the registry's contents characterized by the abstract
predicate `P` of already-processed references. -/
theorem runBrokenLinks_aux (refs : List (Link × Doc)) :
    ∀ (m : BrokenLinksMap) (P : Link → Doc → Prop),
      (m.map Prod.fst).Nodup →
      (∀ l, (docsFor m l).Nodup) →
      (∀ l d, d ∈ docsFor m l ↔ P l d) →
      ((refs.foldl (fun m r => recordBrokenLink m r.1 r.2) m).map Prod.fst).Nodup ∧
      (∀ l, (docsFor (refs.foldl (fun m r => recordBrokenLink m r.1 r.2) m) l).Nodup) ∧
      (∀ l d, d ∈ docsFor (refs.foldl (fun m r => recordBrokenLink m r.1 r.2) m) l ↔
          P l d ∨ (l, d) ∈ refs) := by
  induction refs with
  | nil =>
      intro m P h₁ h₂ h₃
      refine ⟨h₁, h₂, ?_⟩
      intro l d
      simp [h₃ l d]
  | cons r rest ih =>
      intro m P h₁ h₂ h₃
      have step₁ : ((recordBrokenLink m r.1 r.2).map Prod.fst).Nodup :=
        record_keys_nodup m r.1 r.2 h₁
      have step₂ : ∀ l, (docsFor (recordBrokenLink m r.1 r.2) l).Nodup := by
        intro l
        by_cases hl : l = r.1
        · subst hl
          rw [docsFor_record_same]
          exact addToSet_nodup _ _ (h₂ r.1)
        · rw [docsFor_record_ne m r.1 r.2 l hl]
          exact h₂ l
      have step₃ : ∀ l d, d ∈ docsFor (recordBrokenLink m r.1 r.2) l ↔
          (P l d ∨ (l = r.1 ∧ d = r.2)) := by
        intro l d
        by_cases hl : l = r.1
        · subst hl
          rw [docsFor_record_same, mem_addToSet]
          simp [h₃ r.1 d]
        · rw [docsFor_record_ne m r.1 r.2 l hl]
          simp [h₃ l d, hl]
      obtain ⟨g₁, g₂, g₃⟩ := ih (recordBrokenLink m r.1 r.2)
        (fun l d => P l d ∨ (l = r.1 ∧ d = r.2)) step₁ step₂ step₃
      refine ⟨g₁, g₂, ?_⟩
      intro l d
      rw [List.foldl_cons] at *
      rw [g₃ l d]
      constructor
      · rintro ((hp | ⟨rfl, rfl⟩) | hr)
        · exact Or.inl hp
        · exact Or.inr (List.mem_cons_self _ _)
        · exact Or.inr (List.mem_cons_of_mem _ hr)
      · rintro (hp | hr)
        · exact Or.inl (Or.inl hp)
        · rcases List.mem_cons.1 hr with heq | hmem
          · have h1 : l = r.1 := congrArg Prod.fst heq
            have h2 : d = r.2 := congrArg Prod.snd heq
            exact Or.inl (Or.inr ⟨h1, h2⟩)
          · exact Or.inr hmem

/-- C1: in every run, each broken link appears at most once as a key of the
Broken Link Registry (the key list is duplicate-free), each document set is
duplicate-free, and a document is in the set recorded for a link exactly
when some phase reported that `(link, document)` reference — independent of
how many times or in which order references arrive. -/
theorem brokenLinkRegistry_dedup (refs : List (Link × Doc)) :
    ((runBrokenLinks refs).map Prod.fst).Nodup ∧
    (∀ l, (docsFor (runBrokenLinks refs) l).Nodup) ∧
    (∀ l d, d ∈ docsFor (runBrokenLinks refs) l ↔ (l, d) ∈ refs) := by
  have h := runBrokenLinks_aux refs [] (fun _ _ => False)
    (by simp) (by intro l; simp [docsFor, getEntry]) (by intro l d; simp [docsFor, getEntry])
  obtain ⟨h₁, h₂, h₃⟩ := h
  refine ⟨h₁, h₂, ?_⟩
  intro l d
  rw [show runBrokenLinks refs = refs.foldl (fun m r => recordBrokenLink m r.1 r.2) [] from rfl]
  rw [h₃ l d]
  simp

/-! ### Phase catalogue and configuration (src/index.js lines 59-65, 83-92) -/

/-- A check phase as exposed by the phase catalogue: a display name plus
the enabled flag mutated by configuration. -/
structure Phase where
  name : String
  enabled : Bool
deriving DecidableEq

/-- The phase catalogue object (`phases`): a JS object mapping phase id to
phase, modelled as an insertion-ordered association list. -/
abbrev PhaseCatalogue := List (String × Phase)

/-- Modelled from the spec: the fixed catalogue exported by the missing
src/phases/index.js — the six documented phase families, each enabled by
default (src/index.js JSDoc, lines 23-29). -/
def defaultPhases : PhaseCatalogue :=
  [("foundation", ⟨"Foundation & Privacy", true⟩),
   ("metadata", ⟨"Metadata & Semantic Structure", true⟩),
   ("accessibility", ⟨"Accessibility & UX Flags", true⟩),
   ("performance", ⟨"Performance & Technical SEO", true⟩),
   ("crawlability", ⟨"Crawlability & Linking", true⟩),
   ("ai_detection", ⟨"AI Content Detection", true⟩)]

/-- `phases[phaseId].enabled = enabled` (src/index.js line 62). -/
def setPhaseEnabled (cat : PhaseCatalogue) (id : String) (b : Bool) : PhaseCatalogue :=
  updateEntry cat id (fun p => { p with enabled := b })

/-- src/index.js lines 59-65: fold the `options.phases` enable/disable
entries over the catalogue; an entry whose key is absent from the
catalogue (the `if (phases[phaseId])` guard fails) is skipped. -/
def applyPhaseConfig (entries : List (String × Bool)) (cat : PhaseCatalogue) :
    PhaseCatalogue :=
  entries.foldl
    (fun c e => if (getEntry c e.1).isSome then setPhaseEnabled c e.1 e.2 else c) cat

theorem getEntry_isSome_iff_mem_keys {α β : Type} [DecidableEq α]
    (m : List (α × β)) (k : α) :
    (getEntry m k).isSome = true ↔ k ∈ m.map Prod.fst := by
  rw [Option.isSome_iff_ne_none, not_iff_comm, getEntry_eq_none_iff]

theorem getEntry_isSome_setPhaseEnabled (c : PhaseCatalogue) (i : String) (b : Bool)
    (k : String) :
    (getEntry (setPhaseEnabled c i b) k).isSome = (getEntry c k).isSome := by
  by_cases h : k = i
  · subst h
    rw [setPhaseEnabled, getEntry_updateEntry_same]
    cases getEntry c k <;> rfl
  · rw [setPhaseEnabled, getEntry_updateEntry_ne _ _ _ _ h]

theorem applyPhaseConfig_filter (entries : List (String × Bool)) :
    ∀ cat : PhaseCatalogue,
      applyPhaseConfig entries cat =
        applyPhaseConfig (entries.filter (fun e => (getEntry cat e.1).isSome)) cat := by
  induction entries with
  | nil => intro cat; rfl
  | cons e rest ih =>
      intro cat
      by_cases h : (getEntry cat e.1).isSome = true
      · have hfilter :
            rest.filter (fun x => (getEntry (setPhaseEnabled cat e.1 e.2) x.1).isSome) =
              rest.filter (fun x => (getEntry cat x.1).isSome) := by
          apply List.filter_congr
          intro x _
          rw [getEntry_isSome_setPhaseEnabled]
        simp only [applyPhaseConfig, List.foldl_cons, List.filter_cons, h, if_pos]
        rw [show (∀ c : PhaseCatalogue,
              List.foldl (fun c e =>
                if (getEntry c e.1).isSome = true then setPhaseEnabled c e.1 e.2 else c) c rest =
              applyPhaseConfig rest c) from fun _ => rfl]
        rw [show (∀ c : PhaseCatalogue,
              List.foldl (fun c e =>
                if (getEntry c e.1).isSome = true then setPhaseEnabled c e.1 e.2 else c) c
                (rest.filter (fun e => (getEntry cat e.1).isSome)) =
              applyPhaseConfig (rest.filter (fun e => (getEntry cat e.1).isSome)) c)
            from fun _ => rfl]
        rw [ih (setPhaseEnabled cat e.1 e.2), hfilter]
      · simp only [applyPhaseConfig, List.foldl_cons, List.filter_cons, h, if_neg,
          Bool.false_eq_true, not_false_iff]
        exact ih cat

/-- C4: entries of the `options.phases` enable/disable map whose key is
not a phase id of the catalogue are silently dropped (they change
nothing), while an entry with a known key sets exactly that phase's
enabled flag and leaves every other phase untouched. -/
theorem unknownPhaseKeysIgnored (cat : PhaseCatalogue) (entries : List (String × Bool)) :
    (applyPhaseConfig entries cat =
        applyPhaseConfig (entries.filter (fun e => (getEntry cat e.1).isSome)) cat) ∧
    (∀ id b, getEntry cat id = none → applyPhaseConfig [(id, b)] cat = cat) ∧
    (∀ id b, getEntry (applyPhaseConfig [(id, b)] cat) id =
        (getEntry cat id).map (fun p => { p with enabled := b })) ∧
    (∀ id b id', id' ≠ id →
        getEntry (applyPhaseConfig [(id, b)] cat) id' = getEntry cat id') := by
  refine ⟨applyPhaseConfig_filter entries cat, ?_, ?_, ?_⟩
  · intro id b hnone
    simp [applyPhaseConfig, hnone]
  · intro id b
    by_cases h : (getEntry cat id).isSome = true
    · simp only [applyPhaseConfig, List.foldl_cons, List.foldl_nil, h, if_pos]
      rw [setPhaseEnabled, getEntry_updateEntry_same]
    · have hnone : getEntry cat id = none := by
        cases hg : getEntry cat id with
        | none => rfl
        | some p => rw [hg] at h; simp at h
      simp [applyPhaseConfig, h, hnone]
  · intro id b id' hne
    by_cases h : (getEntry cat id).isSome = true
    · simp only [applyPhaseConfig, List.foldl_cons, List.foldl_nil, h, if_pos]
      rw [setPhaseEnabled, getEntry_updateEntry_ne _ _ _ _ hne]
    · simp [applyPhaseConfig, h]

/-- Discharge of C4's hypotheses at the real catalogue: `"marketing"` is no
phase id, so it changes nothing; `("accessibility", false)` disables that
one phase and leaves `"performance"` alone. -/
theorem unknownPhaseKeysIgnored_witness :
    (getEntry defaultPhases "marketing" = none ∧
      applyPhaseConfig [("marketing", false)] defaultPhases = defaultPhases) ∧
    getEntry (applyPhaseConfig [("accessibility", false)] defaultPhases) "accessibility" =
      some ⟨"Accessibility & UX Flags", false⟩ ∧
    getEntry (applyPhaseConfig [("accessibility", false)] defaultPhases) "performance" =
      some ⟨"Performance & Technical SEO", true⟩ := by
  refine ⟨⟨by decide, (unknownPhaseKeysIgnored defaultPhases [("marketing", false)]).2.1
    "marketing" false (by decide)⟩, ?_, ?_⟩
  · rw [(unknownPhaseKeysIgnored defaultPhases [("accessibility", false)]).2.2.1
      "accessibility" false]
    decide
  · rw [(unknownPhaseKeysIgnored defaultPhases [("accessibility", false)]).2.2.2
      "accessibility" false "performance" (by decide)]
    decide

/-- `Object.values(phases)` (src/index.js lines 84, 88): the catalogue's
phase objects in insertion order. -/
def phaseValues (cat : PhaseCatalogue) : List Phase := cat.map Prod.snd

/-- src/index.js line 84: the number of phases reported as running at the
start of the scan. -/
def enabledPhaseCount (cat : PhaseCatalogue) : Nat :=
  ((phaseValues cat).filter (fun p => p.enabled)).length

/-- src/index.js lines 88-91: the phase names listed in the start-of-scan
message. -/
def enabledPhaseNames (cat : PhaseCatalogue) : List String :=
  ((phaseValues cat).filter (fun p => p.enabled)).map (fun p => p.name)

/-- C5: the start-of-scan report covers exactly the phases whose enabled
flag is true — the reported count is the number of enabled phases, the
listed names are theirs, and a disabled phase contributes to neither. -/
theorem enabledPhaseReporting (cat : PhaseCatalogue) :
    enabledPhaseCount cat = (phaseValues cat).countP (fun p => p.enabled) ∧
    enabledPhaseCount cat = (enabledPhaseNames cat).length ∧
    (∀ p : Phase, p ∈ (phaseValues cat).filter (fun p => p.enabled) ↔
        p ∈ phaseValues cat ∧ p.enabled = true) ∧
    (∀ n : String, n ∈ enabledPhaseNames cat ↔
        ∃ p, p ∈ phaseValues cat ∧ p.enabled = true ∧ p.name = n) := by
  refine ⟨?_, ?_, ?_, ?_⟩
  · rw [enabledPhaseCount, List.countP_eq_length_filter]
  · rw [enabledPhaseCount, enabledPhaseNames, List.length_map]
  · intro p
    simp [List.mem_filter]
  · intro n
    simp only [enabledPhaseNames, List.mem_map, List.mem_filter]
    constructor
    · rintro ⟨p, ⟨hp, hen⟩, hn⟩
      exact ⟨p, hp, hen, hn⟩
    · rintro ⟨p, hp, hen, hn⟩
      exact ⟨p, ⟨hp, hen⟩, hn⟩

/-! ### Console summary: totals and category breakdown
    (src/index.js lines 170-297) -/

/-- The Issue Registry (`seoIssuesMap`, src/index.js line 56): a JS `Map`
from category to a `Map` from issue key to the `Set` of affected
documents. -/
abbrev SeoIssuesMap := List (String × List (String × List Doc))

/-- src/index.js lines 180-186: the loop over the Issue Registry that sums
the per-category issue counts (`totalSeoIssues += issuesMap.size`) and
collects the `issueCategories` items. The code pushes each item as the
string interpolation of the size and the category and re-splits it at
lines 216-218; that stringify/parse round trip is the identity on the
underlying data, so an item is modelled directly as the pair
`(issuesMap.size, category)`. -/
def countTotals (seo : SeoIssuesMap) : Nat × List (Nat × String) :=
  seo.foldl (fun acc e => (acc.1 + e.2.length, acc.2 ++ [(e.2.length, e.1)])) (0, [])

/-- Object key order of `categoryGroups` (src/index.js lines 203-213),
the order in which groups are tried when assigning a category. -/
def groupKeys : List String :=
  ["performance", "accessibility", "metadata", "semantic", "crawlability",
   "linking", "content", "privacy", "technical"]

/-- JS `String.startsWith`, on the character lists of the two strings. -/
def strStartsWith (s pre : String) : Bool :=
  pre.data.isPrefixOf s.data

/-- src/index.js lines 221-226: the first group whose name the category
string starts with (`categoryString.startsWith(groupName)` with `break`);
`none` when the category belongs to no group — such a category is pushed
nowhere. -/
def findGroup (c : String) : Option String :=
  groupKeys.find? (fun g => strStartsWith c g)

/-- src/index.js lines 216-227: the contents of `categoryGroups[g]` — the
category items assigned to group `g`, in arrival order. -/
def groupItems (cats : List (Nat × String)) (g : String) : List (Nat × String) :=
  cats.filter (fun ic => findGroup ic.2 == some g)

/-- Stable insertion in front of the first strictly smaller count: one
step of the stable JS `issues.sort((a, b) => b.count - a.count)`
(src/index.js line 267). -/
def insertCountDesc (x : Nat × String) : List (Nat × String) → List (Nat × String)
  | [] => [x]
  | y :: ys => if y.1 ≤ x.1 then x :: y :: ys else y :: insertCountDesc x ys

/-- Stable sort by issue count, descending (src/index.js line 267). -/
def sortCountDesc (l : List (Nat × String)) : List (Nat × String) :=
  l.foldr insertCountDesc []

/-- src/index.js lines 237-241: the fixed display-priority order of the
category groups. -/
def groupDisplayOrder : List String :=
  ["performance", "accessibility", "metadata", "crawlability", "linking",
   "technical", "content", "privacy", "semantic"]

/-- src/index.js lines 256-276: the issue breakdown of the console
summary — every group of `groupDisplayOrder` that received at least one
category, paired with its categories sorted by issue count, descending. -/
def breakdown (cats : List (Nat × String)) : List (String × List (Nat × String)) :=
  groupDisplayOrder.filterMap (fun g =>
    if groupItems cats g = [] then none
    else some (g, sortCountDesc (groupItems cats g)))

theorem insertCountDesc_perm (x : Nat × String) (l : List (Nat × String)) :
    (insertCountDesc x l).Perm (x :: l) := by
  induction l with
  | nil => exact List.Perm.refl _
  | cons y ys ih =>
      by_cases h : y.1 ≤ x.1
      · rw [insertCountDesc, if_pos h]
      · rw [insertCountDesc, if_neg h]
        exact (ih.cons y).trans (List.Perm.swap x y ys)

theorem mem_insertCountDesc (x z : Nat × String) (l : List (Nat × String)) :
    z ∈ insertCountDesc x l ↔ z = x ∨ z ∈ l := by
  rw [(insertCountDesc_perm x l).mem_iff, List.mem_cons]

theorem insertCountDesc_sorted (x : Nat × String) (l : List (Nat × String))
    (h : l.Pairwise (fun a b => b.1 ≤ a.1)) :
    (insertCountDesc x l).Pairwise (fun a b => b.1 ≤ a.1) := by
  induction l with
  | nil => simp [insertCountDesc]
  | cons y ys ih =>
      rcases List.pairwise_cons.1 h with ⟨hy, hys⟩
      by_cases hle : y.1 ≤ x.1
      · rw [insertCountDesc, if_pos hle]
        refine List.pairwise_cons.2 ⟨?_, h⟩
        intro z hz
        rcases List.mem_cons.1 hz with rfl | hz'
        · exact hle
        · exact le_trans (hy z hz') hle
      · rw [insertCountDesc, if_neg hle]
        refine List.pairwise_cons.2 ⟨?_, ih hys⟩
        intro z hz
        rcases (mem_insertCountDesc x z ys).1 hz with rfl | hz'
        · exact le_of_lt (not_le.mp hle)
        · exact hy z hz'

theorem sortCountDesc_perm (l : List (Nat × String)) :
    (sortCountDesc l).Perm l := by
  induction l with
  | nil => exact List.Perm.refl _
  | cons x xs ih =>
      exact (insertCountDesc_perm x (sortCountDesc xs)).trans (ih.cons x)

theorem sortCountDesc_sorted (l : List (Nat × String)) :
    (sortCountDesc l).Pairwise (fun a b => b.1 ≤ a.1) := by
  induction l with
  | nil => simp [sortCountDesc]
  | cons x xs ih => exact insertCountDesc_sorted x (sortCountDesc xs) ih

theorem mem_breakdown_eq (cats : List (Nat × String)) (g : String)
    (items : List (Nat × String)) (h : (g, items) ∈ breakdown cats) :
    items = sortCountDesc (groupItems cats g) := by
  rcases List.mem_filterMap.1 h with ⟨g', _, hf⟩
  by_cases he : groupItems cats g' = []
  · rw [if_pos he] at hf
    exact absurd hf (by simp)
  · rw [if_neg he] at hf
    have h1 : g' = g := congrArg Prod.fst (Option.some.inj hf)
    have h2 : sortCountDesc (groupItems cats g') = items :=
      congrArg Prod.snd (Option.some.inj hf)
    rw [← h2, h1]

theorem breakdown_fst_sublist (cats : List (Nat × String)) :
    ∀ gs : List String,
      ((gs.filterMap (fun g =>
        if groupItems cats g = [] then none
        else some (g, sortCountDesc (groupItems cats g)))).map Prod.fst).Sublist gs := by
  intro gs
  induction gs with
  | nil => simp
  | cons g gs ih =>
      by_cases h : groupItems cats g = []
      · rw [List.filterMap_cons, if_pos h]
        exact ih.cons g
      · rw [List.filterMap_cons, if_neg h, List.map_cons]
        exact ih.cons₂ g

/-- C6: the console breakdown lists its category groups in the fixed
display-priority order performance, accessibility, metadata, crawlability,
linking, technical, content, privacy, semantic (its group names form a
sublist of that exact sequence), and within each listed group the issue
categories are exactly that group's categories, sorted by issue count in
descending order. -/
theorem consoleBreakdownOrder (cats : List (Nat × String)) :
    ((breakdown cats).map Prod.fst).Sublist
      ["performance", "accessibility", "metadata", "crawlability", "linking",
       "technical", "content", "privacy", "semantic"] ∧
    (∀ g items, (g, items) ∈ breakdown cats →
      items.Pairwise (fun a b => b.1 ≤ a.1) ∧ items.Perm (groupItems cats g)) := by
  constructor
  · exact breakdown_fst_sublist cats groupDisplayOrder
  · intro g items h
    have heq := mem_breakdown_eq cats g items h
    subst heq
    exact ⟨sortCountDesc_sorted _, sortCountDesc_perm _⟩

/-- Discharge of C6's membership hypothesis at a concrete registry: two
performance categories and one metadata category produce a breakdown whose
performance group is sorted 5 before 3. -/
theorem consoleBreakdownOrder_witness :
    (("performance", [(5, "performance: render-blocking resources"),
        (3, "performance: large inline script")]) ∈
      breakdown [(3, "performance: large inline script"),
        (2, "metadata: missing description"),
        (5, "performance: render-blocking resources")]) ∧
    ([(5, "performance: render-blocking resources"),
        (3, "performance: large inline script")].Pairwise (fun a b => b.1 ≤ a.1) ∧
      [(5, "performance: render-blocking resources"),
        (3, "performance: large inline script")].Perm
        (groupItems [(3, "performance: large inline script"),
          (2, "metadata: missing description"),
          (5, "performance: render-blocking resources")] "performance")) :=
  ⟨by decide,
    (consoleBreakdownOrder [(3, "performance: large inline script"),
      (2, "metadata: missing description"),
      (5, "performance: render-blocking resources")]).2
      "performance"
      [(5, "performance: render-blocking resources"),
        (3, "performance: large inline script")]
      (by decide)⟩

theorem countTotals_go (seo : SeoIssuesMap) :
    ∀ acc : Nat × List (Nat × String),
      seo.foldl (fun acc e => (acc.1 + e.2.length, acc.2 ++ [(e.2.length, e.1)])) acc =
        (acc.1 + (seo.map (fun p => p.2.length)).sum,
         acc.2 ++ seo.map (fun p => (p.2.length, p.1))) := by
  induction seo with
  | nil => intro acc; simp
  | cons e es ih =>
      intro acc
      rw [List.foldl_cons, ih]
      simp [Nat.add_assoc]

theorem countTotals_fst (seo : SeoIssuesMap) :
    (countTotals seo).1 = (seo.map (fun p => p.2.length)).sum := by
  rw [countTotals, countTotals_go]
  simp

theorem countTotals_snd (seo : SeoIssuesMap) :
    (countTotals seo).2 = seo.map (fun p => (p.2.length, p.1)) := by
  rw [countTotals, countTotals_go]
  simp

/-- Elapsed scan time in seconds (src/index.js line 173):
`(endTime - startTime) / 1000` on millisecond timestamps. -/
def elapsedSeconds (startTime endTime : ℕ) : ℚ :=
  ((endTime : ℚ) - (startTime : ℚ)) / 1000

/-- The data carried by the console summary string `summaryForConsole`
(src/index.js lines 279-290). -/
structure ConsoleSummary where
  elapsed : ℚ
  brokenLinkCount : ℕ
  totalSeoIssues : ℕ
  issueBreakdown : List (String × List (Nat × String))

/-- src/index.js lines 170-290, console path of `generateReport`: elapsed
time, the broken-link total (`brokenLinksMap.size`), the issue total
accumulated at lines 183-186, and the category breakdown. -/
def consoleSummary (blm : BrokenLinksMap) (seo : SeoIssuesMap)
    (startTime endTime : ℕ) : ConsoleSummary :=
  { elapsed := elapsedSeconds startTime endTime
    brokenLinkCount := blm.length
    totalSeoIssues := (countTotals seo).1
    issueBreakdown := breakdown (countTotals seo).2 }

/-- C8: for registries with the JS `Map` key-uniqueness property, the
console summary reports elapsed seconds `(endTime - startTime) / 1000`,
a broken-link total equal to the number of distinct keys of the Broken
Link Registry, and an issue total equal to the sum over the categories of
the number of distinct issue keys of that category — not the number of
affected documents. -/
theorem consoleSummaryTotals (blm : BrokenLinksMap) (seo : SeoIssuesMap) (s e : ℕ)
    (hb : (blm.map Prod.fst).Nodup)
    (hs : ∀ c m, (c, m) ∈ seo → (m.map Prod.fst).Nodup) :
    (consoleSummary blm seo s e).elapsed = ((e : ℚ) - (s : ℚ)) / 1000 ∧
    (consoleSummary blm seo s e).brokenLinkCount = ((blm.map Prod.fst).dedup).length ∧
    (consoleSummary blm seo s e).totalSeoIssues =
      (seo.map (fun p => ((p.2.map Prod.fst).dedup).length)).sum := by
  refine ⟨rfl, ?_, ?_⟩
  · rw [consoleSummary]
    rw [hb.dedup, List.length_map]
  · rw [consoleSummary]
    simp only [countTotals_fst]
    congr 1
    apply List.map_congr_left
    intro p hp
    rw [(hs p.1 p.2 hp).dedup, List.length_map]

/-- Discharge of C8's key-uniqueness hypotheses at a concrete run: one
broken link referenced by two documents, one category with two issue keys
each affecting one document, 1500 ms of scan time. -/
theorem consoleSummaryTotals_witness :
    ((([("/missing", ["/a", "/b"])] : BrokenLinksMap).map Prod.fst).Nodup ∧
      (consoleSummary [("/missing", ["/a", "/b"])]
        [("metadata", [("missing title", ["/a"]), ("missing description", ["/b"])])]
        500 2000).brokenLinkCount =
        ((([("/missing", ["/a", "/b"])] : BrokenLinksMap).map Prod.fst).dedup).length) ∧
    (consoleSummary [("/missing", ["/a", "/b"])]
        [("metadata", [("missing title", ["/a"]), ("missing description", ["/b"])])]
        500 2000).totalSeoIssues =
      (([("metadata", [("missing title", ["/a"]), ("missing description", ["/b"])])] :
          SeoIssuesMap).map (fun p => ((p.2.map Prod.fst).dedup).length)).sum := by
  have h := consoleSummaryTotals [("/missing", ["/a", "/b"])]
    [("metadata", [("missing title", ["/a"]), ("missing description", ["/b"])])]
    500 2000 (by decide)
    (by
      rintro c m hm
      simp only [List.mem_singleton, Prod.mk.injEq] at hm
      obtain ⟨rfl, rfl⟩ := hm
      decide)
  exact ⟨⟨by decide, h.2.1⟩, h.2.2⟩

/-- C10: a category whose name starts with none of the nine group names is
nevertheless counted in the issue total — the total splits as everything
before it, plus its own issue count, plus everything after it — while it
appears in no group of the console breakdown. -/
theorem unknownCategoryCountedNotShown (pre post : SeoIssuesMap) (c : String)
    (m : List (String × List Doc)) (hng : findGroup c = none) :
    (countTotals (pre ++ (c, m) :: post)).1 =
      (countTotals pre).1 + m.length + (countTotals post).1 ∧
    (∀ g items, (g, items) ∈ breakdown (countTotals (pre ++ (c, m) :: post)).2 →
      ∀ n, (n, c) ∉ items) := by
  constructor
  · simp only [countTotals_fst, List.map_append, List.map_cons, List.sum_append,
      List.sum_cons]
    omega
  · intro g items hmem n hn
    have heq := mem_breakdown_eq _ g items hmem
    subst heq
    have hmem' : (n, c) ∈ groupItems ((countTotals (pre ++ (c, m) :: post)).2) g :=
      (sortCountDesc_perm _).subset hn
    have := (List.mem_filter.1 hmem').2
    rw [beq_iff_eq, hng] at this
    exact Option.noConfusion this

/-- Discharge of C10's hypothesis: the category "experimental checks"
starts with no group name, yet its single issue is counted. -/
theorem unknownCategoryCountedNotShown_witness :
    findGroup "experimental checks" = none ∧
    (countTotals ([] ++ ("experimental checks", [("odd finding", ["/a"])]) :: [])).1 =
      (countTotals []).1 + [("odd finding", ["/a"])].length + (countTotals []).1 :=
  ⟨by decide,
    (unknownCategoryCountedNotShown [] [] "experimental checks"
      [("odd finding", ["/a"])] (by decide)).1⟩

/-! ### Report file path resolution (src/index.js lines 50-52, 97-98) -/

/-- The fields of `options` relevant to report-path resolution
(src/index.js JSDoc lines 14-15): the report path and its legacy alias. -/
structure CheckerOptions where
  reportFilePath : Option String := none
  logFilePath : Option String := none

/-- JS `a || b` on an optional string: the string when present and truthy
(JS treats the empty string as falsy), otherwise the fallback. -/
def jsOrDefault (v : Option String) (fallback : String) : String :=
  match v with
  | some s => if s = "" then fallback else s
  | none => fallback

/-- src/index.js line 52:
`options.reportFilePath || options.logFilePath || 'site-report.log'`. -/
def resolvedReportFilePath (o : CheckerOptions) : String :=
  jsOrDefault o.reportFilePath (jsOrDefault o.logFilePath "site-report.log")

/-- Split a character list at every occurrence of the separator. -/
def splitOnChar (sep : Char) : List Char → List (List Char)
  | [] => [[]]
  | c :: cs =>
    match splitOnChar sep cs with
    | [] => [[]]
    | s :: ss => if c = sep then [] :: s :: ss else (c :: s) :: ss

/-- The `/`-separated segments of a path string. -/
def splitPath (s : String) : List String :=
  (splitOnChar '/' s.data).map (fun l => String.mk l)

/-- One segment step of Node `path.normalize`: empty and `.` segments are
dropped; `..` pops the last kept segment (clamped at the root of an
absolute path, preserved at the front of a relative one); every other
segment is appended. -/
def normStep (isAbs : Bool) (acc : List String) (s : String) : List String :=
  if s = "" ∨ s = "." then acc
  else if s = ".." then
    if isAbs then acc.dropLast
    else
      match acc.getLast? with
      | some t => if t = ".." then acc ++ [".."] else acc.dropLast
      | none => [".."]
  else acc ++ [s]

/-- Node `path.normalize`, on segment lists. -/
def normSegs (isAbs : Bool) (segs : List String) : List String :=
  segs.foldl (normStep isAbs) []

/-- Node `path.join(a, b)` as used at src/index.js line 98
(`join(distPath, reportFilePath)`), returning the segments of the
resulting path: both segment lists concatenated, then normalized; the
result is absolute exactly when `a` is. -/
def pathJoinSegs (a b : String) : List String :=
  normSegs (strStartsWith a "/") (splitPath a ++ splitPath b)

/-- The segments of the build output directory, as Node normalizes
them. -/
def outputDirSegs (dist : String) : List String :=
  normSegs (strStartsWith dist "/") (splitPath dist)

/-- src/index.js line 98 (`absoluteReportFilePath`), in segments. -/
def absoluteReportFilePath (dist : String) (o : CheckerOptions) : List String :=
  pathJoinSegs dist (resolvedReportFilePath o)

theorem normSegs_no_dotdot (isAbs : Bool) (segs : List String) :
    ".." ∉ segs →
    ∀ acc, segs.foldl (normStep isAbs) acc =
      acc ++ segs.filter (fun s => !(s == "" || s == ".")) := by
  induction segs with
  | nil => intro _ acc; simp
  | cons s rest ih =>
      intro h acc
      have hs : s ≠ ".." := fun hc => h (hc ▸ List.mem_cons_self s rest)
      have hrest : ".." ∉ rest := fun hc => h (List.mem_cons_of_mem s hc)
      rw [List.foldl_cons]
      by_cases hskip : s = "" ∨ s = "."
      · have hf : (!(s == "" || s == ".")) = false := by
          rcases hskip with h' | h' <;> simp [h']
        rw [List.filter_cons, hf]
        rw [show normStep isAbs acc s = acc from by rw [normStep, if_pos hskip]]
        exact ih hrest acc
      · have hf : (!(s == "" || s == ".")) = true := by
          rcases not_or.1 hskip with ⟨h1, h2⟩
          simp [h1, h2]
        rw [List.filter_cons, hf]
        rw [show normStep isAbs acc s = acc ++ [s] from by
          rw [normStep, if_neg hskip, if_neg hs]]
        rw [ih hrest (acc ++ [s]), List.append_assoc]
        rfl

/-- C9 fails as stated: setting `reportFilePath: "../escape.log"` joins to
a path outside the output directory `/dist` — `path.join` normalizes the
`..` segment away, so the report lands in the parent of the output
directory. -/
theorem reportPathEscape_counterexample :
    resolvedReportFilePath { reportFilePath := some "../escape.log" } = "../escape.log" ∧
    absoluteReportFilePath "/dist" { reportFilePath := some "../escape.log" } =
      ["escape.log"] ∧
    ¬ (outputDirSegs "/dist" <+:
        absoluteReportFilePath "/dist" { reportFilePath := some "../escape.log" }) := by
  refine ⟨rfl, by decide, ?_⟩
  have h1 : outputDirSegs "/dist" = ["dist"] := by decide
  have h2 : absoluteReportFilePath "/dist" { reportFilePath := some "../escape.log" } =
      ["escape.log"] := by decide
  rw [h1, h2]
  rintro ⟨t, ht⟩
  have : "dist" = "escape.log" := (List.cons.injEq .. ▸ ht).1
  exact absurd this (by decide)

/-- C9 (amended): the report path used is `options.reportFilePath` when it
is set to a non-empty string, else `options.logFilePath` when set
non-empty, else `site-report.log`; the path is resolved by joining it
under the build output directory, and the joined path lies inside the
output directory whenever the configured path contains no `..` segment
(without that proviso the claim fails, see the counterexample). -/
theorem reportPathResolution (o : CheckerOptions) (dist : String) :
    (∀ s, o.reportFilePath = some s → s ≠ "" → resolvedReportFilePath o = s) ∧
    ((o.reportFilePath = none ∨ o.reportFilePath = some "") →
      ∀ t, o.logFilePath = some t → t ≠ "" → resolvedReportFilePath o = t) ∧
    ((o.reportFilePath = none ∨ o.reportFilePath = some "") →
      (o.logFilePath = none ∨ o.logFilePath = some "") →
      resolvedReportFilePath o = "site-report.log") ∧
    (absoluteReportFilePath dist o =
      normSegs (strStartsWith dist "/")
        (splitPath dist ++ splitPath (resolvedReportFilePath o))) ∧
    (".." ∉ splitPath (resolvedReportFilePath o) →
      outputDirSegs dist <+: absoluteReportFilePath dist o) := by
  refine ⟨?_, ?_, ?_, rfl, ?_⟩
  · intro s hset hne
    rw [resolvedReportFilePath, hset, jsOrDefault, if_neg hne]
  · intro hr t hset hne
    rcases hr with hr | hr <;>
      rw [resolvedReportFilePath, hr, hset] <;>
      simp [jsOrDefault, hne]
  · intro hr hl
    rcases hr with hr | hr <;> rcases hl with hl | hl <;>
      rw [resolvedReportFilePath, hr, hl] <;> simp [jsOrDefault]
  · intro hnd
    rw [absoluteReportFilePath, pathJoinSegs, normSegs, List.foldl_append]
    rw [normSegs_no_dotdot _ _ hnd]
    exact ⟨_, rfl⟩

/-- Discharge of C9's hypotheses: with only the legacy `logFilePath` set,
the legacy alias wins and the report stays inside `/dist`. -/
theorem reportPathResolution_witness :
    resolvedReportFilePath { logFilePath := some "report.md" } = "report.md" ∧
    outputDirSegs "/dist" <+:
      absoluteReportFilePath "/dist" { logFilePath := some "report.md" } :=
  ⟨(reportPathResolution { logFilePath := some "report.md" } "/dist").2.1
      (Or.inl rfl) "report.md" rfl (by decide),
    (reportPathResolution { logFilePath := some "report.md" } "/dist").2.2.2.2
      (by decide)⟩

/-! ### Report writing (src/index.js lines 189-196) -/

/-- Minimal filesystem state: the existing directories, and the files with
their whole contents — every path as a segment list. -/
structure FsState where
  dirs : List (List String)
  files : List (List String × String)

/-- Every ancestor of a directory, outermost first: the directories that
`fs.mkdirSync(dir, { recursive: true })` ensures exist. -/
def ancestors : List String → List (List String)
  | [] => []
  | s :: rest => [s] :: (ancestors rest).map (fun q => s :: q)

/-- `fs.mkdirSync(reportDir, { recursive: true })` (src/index.js
line 193): the directory and all its ancestors come into existence. -/
def mkdirRecursive (st : FsState) (dir : List String) : FsState :=
  { st with dirs := st.dirs ++ ancestors dir }

/-- `fs.writeFileSync(filePath, reportData, 'utf8')` (src/index.js
line 196): one whole-file write — the content at the path is replaced
outright, or the file is created. -/
def setFile (files : List (List String × String)) (p : List String) (data : String) :
    List (List String × String) :=
  match getEntry files p with
  | some _ => updateEntry files p (fun _ => data)
  | none => files ++ [(p, data)]

/-- src/index.js lines 189-196: `path.dirname` of the report path
(`dropLast` on segments), the `existsSync` check guarding a recursive
`mkdirSync`, then the `writeFileSync`. -/
def writeReportFile (st : FsState) (fp : List String) (data : String) : FsState :=
  let dir := fp.dropLast
  let st1 := if dir ∈ st.dirs then st else mkdirRecursive st dir
  { st1 with files := setFile st1.files fp data }

theorem getEntry_setFile_same (files : List (List String × String))
    (p : List String) (data : String) :
    getEntry (setFile files p data) p = some data := by
  rw [setFile]
  cases h : getEntry files p with
  | some old => rw [getEntry_updateEntry_same, h]; rfl
  | none =>
      rw [getEntry_append, h]
      simp [getEntry]

theorem getEntry_setFile_ne (files : List (List String × String))
    (p : List String) (data : String) (p' : List String) (h : p' ≠ p) :
    getEntry (setFile files p data) p' = getEntry files p' := by
  rw [setFile]
  cases hg : getEntry files p with
  | some old => rw [getEntry_updateEntry_ne _ _ _ _ h]
  | none =>
      rw [getEntry_append]
      cases hg' : getEntry files p' with
      | some v => simp
      | none => simp [getEntry, Ne.symm h]

/-- C7: writing the report creates the destination directory recursively
(with all its ancestors) exactly when it does not exist yet, leaves the
directories untouched when it does, stores exactly the report data at the
report path — replacing whatever was there — and touches no other file. -/
theorem reportWriteSemantics (st : FsState) (fp : List String) (data : String) :
    (fp.dropLast ∈ st.dirs → (writeReportFile st fp data).dirs = st.dirs) ∧
    (fp.dropLast ∉ st.dirs →
      ∀ q ∈ ancestors fp.dropLast, q ∈ (writeReportFile st fp data).dirs) ∧
    getEntry (writeReportFile st fp data).files fp = some data ∧
    (∀ p, p ≠ fp →
      getEntry (writeReportFile st fp data).files p = getEntry st.files p) := by
  refine ⟨?_, ?_, ?_, ?_⟩
  · intro h
    rw [writeReportFile]
    simp only [if_pos h]
  · intro h q hq
    rw [writeReportFile]
    simp only [if_neg h, mkdirRecursive]
    exact List.mem_append_right _ hq
  · rw [writeReportFile]
    by_cases h : fp.dropLast ∈ st.dirs <;>
      simp only [if_pos, if_neg, h, mkdirRecursive] <;>
      exact getEntry_setFile_same _ _ _
  · intro p hp
    rw [writeReportFile]
    by_cases h : fp.dropLast ∈ st.dirs <;>
      simp only [if_pos, if_neg, h, mkdirRecursive] <;>
      exact getEntry_setFile_ne _ _ _ _ hp

/-- Discharge of C7's hypotheses on an empty filesystem: writing the
report creates `dist` and stores the report there, overwriting nothing. -/
theorem reportWriteSemantics_witness :
    (["dist", "site-report.log"].dropLast ∉ (FsState.mk [] []).dirs ∧
      ["dist"] ∈ (writeReportFile ⟨[], []⟩ ["dist", "site-report.log"] "report").dirs) ∧
    getEntry (writeReportFile ⟨[], []⟩ ["dist", "site-report.log"] "report").files
      ["dist", "site-report.log"] = some "report" :=
  ⟨⟨by decide,
      (reportWriteSemantics ⟨[], []⟩ ["dist", "site-report.log"] "report").2.1
        (by decide) ["dist"] (by decide)⟩,
    (reportWriteSemantics ⟨[], []⟩ ["dist", "site-report.log"] "report").2.2.1⟩

/-! ### Error propagation through the build-done hook
    (src/index.js lines 78-154, 170-196) -/

/-- Failure behaviour of the filesystem during one run: the outcome of
reading each HTML file, and whether directory creation / report writing
throw (`none` means they succeed). -/
structure FsBehavior where
  readFile : String → Except String String
  mkdirErr : Option String
  writeErr : Option String

/-- `fs.mkdirSync(reportDir, { recursive: true })` under the run's
filesystem behaviour. -/
def tryMkdir (beh : FsBehavior) (st : FsState) (dir : List String) :
    Except String FsState :=
  match beh.mkdirErr with
  | some err => .error err
  | none => .ok (mkdirRecursive st dir)

/-- `fs.writeFileSync(filePath, reportData, 'utf8')` under the run's
filesystem behaviour. -/
def tryWrite (beh : FsBehavior) (st : FsState) (p : List String) (data : String) :
    Except String FsState :=
  match beh.writeErr with
  | some err => .error err
  | none => .ok { st with files := setFile st.files p data }

/-- src/index.js lines 189-196 over a fallible filesystem: ensure the
report directory exists, write the report, then log the console summary
(the returned flag). Filesystem exceptions escape `generateReport`
uncaught — the first failing operation aborts it. -/
def generateReportFs (beh : FsBehavior) (st : FsState) (fp : List String)
    (data : String) : Except String (FsState × Bool) :=
  match if fp.dropLast ∈ st.dirs then Except.ok st else tryMkdir beh st fp.dropLast with
  | .error e => .error e
  | .ok st1 =>
    match tryWrite beh st1 fp data with
    | .error e => .error e
    | .ok st2 => .ok (st2, true)

/-- src/index.js lines 104-139, one document's analysis: `fs.readFileSync`
may throw, and nothing catches it — the rejection propagates through the
awaited `Promise.all`. The phase run itself is modelled from the spec as
total: a phase must never throw for a malformed input (spec section 4.1;
the phase bodies live in the missing src/phases modules). -/
def analyzeDocument (beh : FsBehavior) (file : String) : Except String Unit :=
  match beh.readFile file with
  | .error e => .error e
  | .ok _ => .ok ()

/-- `await Promise.all(checkHtmlPromises)` (src/index.js line 141): the
await succeeds only when every document's analysis did; otherwise the
rejection of a failed analysis propagates. -/
def analyzeAll (beh : FsBehavior) : List String → Except String Unit
  | [] => .ok ()
  | f :: fs =>
    match analyzeDocument beh f with
    | .error e => .error e
    | .ok _ => analyzeAll beh fs

/-- src/index.js lines 78-154, the `astro:build:done` hook: analyze every
HTML file, await them all, then generate and write the report. -/
def buildDoneHook (beh : FsBehavior) (st : FsState) (files : List String)
    (fp : List String) (data : String) : Except String (FsState × Bool) :=
  match analyzeAll beh files with
  | .error e => .error e
  | .ok _ => generateReportFs beh st fp data

/-- A run in which one page file is unreadable while directory creation
and report writing cannot fail. -/
def unreadablePageFs : FsBehavior :=
  { readFile := fun f =>
      if f = "a.html" then .error "ENOENT: a.html" else .ok "<html></html>"
    mkdirErr := none
    writeErr := none }

/-- C3 fails as stated: with every report-directory and report-write
operation guaranteed to succeed, the run still propagates a hard error —
the uncaught failure to read `a.html` at src/index.js line 106 — so
report-path filesystem failures are not the only hard errors, and this
run produces no report at all. -/
theorem readFailurePropagates_counterexample :
    unreadablePageFs.mkdirErr = none ∧ unreadablePageFs.writeErr = none ∧
    buildDoneHook unreadablePageFs ⟨[["dist"]], []⟩ ["a.html"]
      ["dist", "site-report.log"] "report" = .error "ENOENT: a.html" :=
  ⟨rfl, rfl, rfl⟩

theorem analyzeAll_ok (beh : FsBehavior) (files : List String)
    (h : ∀ f ∈ files, ∃ c, beh.readFile f = .ok c) :
    analyzeAll beh files = .ok () := by
  induction files with
  | nil => rfl
  | cons f fs ih =>
      obtain ⟨c, hc⟩ := h f (List.mem_cons_self f fs)
      rw [analyzeAll, analyzeDocument, hc]
      exact ih (fun g hg => h g (List.mem_cons_of_mem f hg))

theorem analyzeAll_error (beh : FsBehavior) (files : List String) (err : String)
    (h : analyzeAll beh files = .error err) :
    ∃ f ∈ files, beh.readFile f = .error err := by
  induction files with
  | nil => exact absurd h (by rw [analyzeAll]; exact fun hc => Except.noConfusion hc)
  | cons f fs ih =>
      rw [analyzeAll, analyzeDocument] at h
      cases hr : beh.readFile f with
      | error e =>
          rw [hr] at h
          exact ⟨f, List.mem_cons_self f fs, by rw [hr, Except.error.inj h]⟩
      | ok c =>
          rw [hr] at h
          obtain ⟨g, hg, hge⟩ := ih h
          exact ⟨g, List.mem_cons_of_mem f hg, hge⟩

theorem generateReportFs_error (beh : FsBehavior) (st : FsState) (fp : List String)
    (data : String) (err : String)
    (h : generateReportFs beh st fp data = .error err) :
    beh.mkdirErr = some err ∨ beh.writeErr = some err := by
  rw [generateReportFs] at h
  by_cases hd : fp.dropLast ∈ st.dirs
  · rw [if_pos hd] at h
    cases hw : beh.writeErr with
    | some e =>
        simp only [tryWrite, hw] at h
        exact Or.inr (congrArg some (Except.error.inj h))
    | none =>
        simp only [tryWrite, hw] at h
        exact Except.noConfusion h
  · rw [if_neg hd] at h
    cases hm : beh.mkdirErr with
    | some e =>
        simp only [tryMkdir, hm] at h
        exact Or.inl (congrArg some (Except.error.inj h))
    | none =>
        simp only [tryMkdir, hm] at h
        cases hw : beh.writeErr with
        | some e =>
            simp only [tryWrite, hw] at h
            exact Or.inr (congrArg some (Except.error.inj h))
        | none =>
            simp only [tryWrite, hw] at h
            exact Except.noConfusion h

/-- C3 (amended): a run in which every page read succeeds and neither
directory creation nor the report write fails completes normally, with the
report data stored at the report path and the console summary emitted; and
every hard error that does propagate out of the hook is a filesystem
failure — reading a page's HTML file, creating the report directory, or
writing the report file. As stated the claim fails, because an unreadable
page file is a hard error too (see the counterexample). -/
theorem runFailureModes (beh : FsBehavior) (st : FsState) (files : List String)
    (fp : List String) (data : String) :
    ((∀ f ∈ files, ∃ c, beh.readFile f = .ok c) → beh.mkdirErr = none →
      beh.writeErr = none →
      ∃ st', buildDoneHook beh st files fp data = .ok (st', true) ∧
        getEntry st'.files fp = some data) ∧
    (∀ err, buildDoneHook beh st files fp data = .error err →
      (∃ f ∈ files, beh.readFile f = .error err) ∨
        beh.mkdirErr = some err ∨ beh.writeErr = some err) := by
  constructor
  · intro hreads hmkdir hwrite
    have hall := analyzeAll_ok beh files hreads
    simp only [buildDoneHook, hall, generateReportFs]
    by_cases hd : fp.dropLast ∈ st.dirs
    · rw [if_pos hd]
      simp only [tryWrite, hwrite]
      exact ⟨_, rfl, getEntry_setFile_same _ _ _⟩
    · rw [if_neg hd]
      simp only [tryMkdir, hmkdir, tryWrite, hwrite]
      exact ⟨_, rfl, getEntry_setFile_same _ _ _⟩
  · intro err herr
    cases hm : analyzeAll beh files with
    | error e =>
        simp only [buildDoneHook, hm] at herr
        exact Or.inl (analyzeAll_error beh files err
          (by rw [hm, Except.error.inj herr]))
    | ok u =>
        simp only [buildDoneHook, hm] at herr
        exact Or.inr (generateReportFs_error beh st fp data err herr)

/-- Discharge of C3's hypotheses: with readable pages and a healthy
filesystem the hook completes and the report is on disk. -/
theorem runFailureModes_witness :
    ∃ st', buildDoneHook
        ⟨fun _ => Except.ok "<html></html>", none, none⟩ ⟨[], []⟩
        ["a.html", "b.html"] ["dist", "site-report.log"] "report" =
        .ok (st', true) ∧
      getEntry st'.files ["dist", "site-report.log"] = some "report" :=
  (runFailureModes ⟨fun _ => Except.ok "<html></html>", none, none⟩ ⟨[], []⟩
    ["a.html", "b.html"] ["dist", "site-report.log"] "report").1
    (fun _ _ => ⟨"<html></html>", rfl⟩) rfl rfl

/-! ### Ordering of analysis and report generation
    (src/index.js lines 104-153) -/

/-- The observable events of the build-done hook: completion of one
document's analysis, and the report-generation call. -/
inductive HookEvent where
  | analyze (doc : String)
  | report
deriving DecidableEq

/-- The hook's control state: still awaiting the listed document
analyses, or past the `generateReport` call. -/
inductive HookState where
  | running (pending : List String)
  | reported
deriving DecidableEq

/-- Remove the first occurrence of an element. -/
def removeOne (d : String) : List String → List String
  | [] => []
  | x :: xs => if x = d then xs else x :: removeOne d xs

/-- Small-step semantics of the hook's concurrency (src/index.js lines
104-153): while analyses are pending, any one of them may complete (the
`checkHtmlPromises` resolve in no particular order); the report step —
`generateReport` at line 144 — is enabled only once no analysis is
pending, which is exactly the `await Promise.all` at line 141. -/
inductive HookStep : HookState → HookEvent → HookState → Prop where
  | analyze {pending : List String} {d : String} (h : d ∈ pending) :
      HookStep (.running pending) (.analyze d) (.running (removeOne d pending))
  | report : HookStep (.running []) .report .reported

/-- Reflexive-transitive executions of the hook, recording the event
trace. -/
inductive HookExec : HookState → List HookEvent → HookState → Prop where
  | nil (s : HookState) : HookExec s [] s
  | cons {s : HookState} {e : HookEvent} {s' : HookState} {tr : List HookEvent}
      {s'' : HookState} :
      HookStep s e s' → HookExec s' tr s'' → HookExec s (e :: tr) s''

/-- The documents whose analysis completed within a trace. -/
def analyzedDocs (tr : List HookEvent) : List String :=
  tr.filterMap (fun e =>
    match e with
    | .analyze d => some d
    | .report => none)

theorem removeOne_perm (d : String) (l : List String) (h : d ∈ l) :
    (d :: removeOne d l).Perm l := by
  induction l with
  | nil => exact absurd h (List.not_mem_nil d)
  | cons x xs ih =>
      by_cases hx : x = d
      · rw [removeOne, if_pos hx, hx]
      · rw [removeOne, if_neg hx]
        have hd : d ∈ xs := by
          rcases List.mem_cons.1 h with h' | h'
          · exact absurd h'.symm hx
          · exact h'
        exact (List.Perm.swap x d (removeOne d xs)).trans ((ih hd).cons x)

theorem hookExec_from_reported (tr : List HookEvent) (s' : HookState)
    (h : HookExec HookState.reported tr s') : tr = [] := by
  cases h with
  | nil => rfl
  | cons hstep _ => cases hstep

theorem hookExec_reported (s : HookState) (tr : List HookEvent) (send : HookState)
    (h : HookExec s tr send) :
    send = .reported →
    ∀ pending, s = .running pending →
      ∃ pre, tr = pre ++ [HookEvent.report] ∧ HookEvent.report ∉ pre ∧
        (analyzedDocs pre).Perm pending := by
  induction h with
  | nil s =>
      intro hend pending hp
      rw [hend] at hp
      exact absurd hp (fun hc => HookState.noConfusion hc)
  | cons hstep hexec ih =>
      intro hend pending hp
      subst hp
      subst hend
      cases hstep with
      | analyze hmem =>
          obtain ⟨pre, htr, hnr, hperm⟩ := ih rfl _ rfl
          refine ⟨HookEvent.analyze _ :: pre, by rw [htr]; rfl, ?_, ?_⟩
          · intro hc
            rcases List.mem_cons.1 hc with hc' | hc'
            · exact HookEvent.noConfusion hc'
            · exact hnr hc'
          · rw [show analyzedDocs (HookEvent.analyze _ :: pre) =
                _ :: analyzedDocs pre from rfl]
            exact (hperm.cons _).trans (removeOne_perm _ _ hmem)
      | report =>
          have htr := hookExec_from_reported _ _ hexec
          subst htr
          exact ⟨[], rfl, List.not_mem_nil _, List.Perm.refl _⟩

/-- C2: in every execution of the hook that reaches the report call, the
report event is the very last event, occurs nowhere earlier in the trace,
and by the time it fires the completed analyses are exactly the documents
the run started with — report generation happens strictly after every
per-document analysis has finished. -/
theorem reportAfterAllAnalyses (files : List String) (tr : List HookEvent)
    (h : HookExec (.running files) tr .reported) :
    ∃ pre, tr = pre ++ [HookEvent.report] ∧ HookEvent.report ∉ pre ∧
      (analyzedDocs pre).Perm files :=
  hookExec_reported _ tr _ h rfl files rfl

/-- Discharge of C2's hypothesis on a concrete two-page execution. -/
theorem reportAfterAllAnalyses_witness :
    ∃ pre, [HookEvent.analyze "/a", HookEvent.analyze "/b", HookEvent.report] =
      pre ++ [HookEvent.report] ∧ HookEvent.report ∉ pre ∧
      (analyzedDocs pre).Perm ["/a", "/b"] :=
  reportAfterAllAnalyses ["/a", "/b"] _
    (HookExec.cons (HookStep.analyze (by decide))
      (HookExec.cons (HookStep.analyze (by decide))
        (HookExec.cons HookStep.report (HookExec.nil _))))

end AstroSeoChecker
